import Mathlib

/-!
Verification of the DataBatcher request-coalescing coordinator
(`src/DataBatcher.js`) against its natural-language specification.

The development is a shallow embedding of the JavaScript source:

* A small universe `JSVal` of untyped JavaScript values models the
  constructor-argument validation layer (`_prepareBatchLoadFn`,
  `_prepareBatchSaveFn`, `_prepareOptions`), including the `typeof`
  dispatch and the error messages built by string interpolation.
* The coordinator proper is modelled as a pure state machine over
  `BatcherState`: the load cache `_loadCache` is an association list,
  the pending queue `_queue` a list of `PendingItem`s, and promise
  identity is modelled by a fresh natural-number future id (`fid`)
  allocated from `nextFid` each time `new Promise` runs.
* The flush loop `_flushQueue` is modelled by `scanSize` (the
  homogeneity `while` scan), `flushStep` (one iteration: compute the
  batch and split it off the queue) and `runFlush` (the recursion until
  the queue is empty, recording one batch-function invocation per
  dispatched batch and the settlement of every item's future).
* Batch-function outcomes are modelled by `BatchOutcome` (not thenable /
  thenable but not an array / an array of per-position values, each
  either an ordinary value or an `Error` instance), and the validation
  in `_checkLoadResult` / `_checkSaveResult` by `checkLoadResult` /
  `checkSaveResult`.
-/

namespace DataBatcher

/-! ### JavaScript value layer: constructor validation -/

/-- A shallow universe of JavaScript values, sufficient to model the
`typeof`-based dispatch in the constructor helpers. -/
inductive JSVal where
  | undef
  | nullv
  | boolean (b : Bool)
  | number (n : Int)
  | str (s : String)
  | object
  | func
  deriving DecidableEq

/-- JavaScript `typeof`. Note `typeof null === "object"`. -/
def JSVal.typeof : JSVal → String
  | .undef => "undefined"
  | .nullv => "object"
  | .boolean _ => "boolean"
  | .number _ => "number"
  | .str _ => "string"
  | .object => "object"
  | .func => "function"

/-- `const isFunction = x => typeof x === 'function'` -/
def isFunction (x : JSVal) : Bool := x.typeof == "function"

/-- `const isUndefined = x => typeof x === 'undefined'` -/
def isUndefined (x : JSVal) : Bool := x.typeof == "undefined"

/-- `const isDefined = x => typeof x !== 'undefined'` -/
def isDefined (x : JSVal) : Bool := !(x.typeof == "undefined")

/-- `const isObject = x => typeof x === 'object'` -/
def isObject (x : JSVal) : Bool := x.typeof == "object"

/-- JavaScript truthiness of the modelled values. -/
def JSVal.truthy : JSVal → Bool
  | .undef => false
  | .nullv => false
  | .boolean b => b
  | .number n => !(n == 0)
  | .str s => !(s == "")
  | .object => true
  | .func => true

/-- JavaScript string coercion as it appears inside the template
literals of the error messages. -/
def JSVal.display : JSVal → String
  | .undef => "undefined"
  | .nullv => "null"
  | .boolean b => if b then "true" else "false"
  | .number n => toString n
  | .str s => s
  | .object => "[object Object]"
  | .func => "function"

/-- The `TypeError` message thrown when the batch load function is not
callable. -/
def loadFnErrorMessage (batchLoadFn : JSVal) : String :=
  "DataBatcher must be constructed with a batch load function which accepts " ++
    "Array<key> and returns Promise<Array<value>>, but got: " ++ batchLoadFn.display ++ "."

/-- The `TypeError` message thrown when the batch save function is
supplied but not callable. -/
def saveFnErrorMessage (batchSaveFn : JSVal) : String :=
  "DataBatcher must be constructed with a batch save function which accepts " ++
    "Array<[key,value]> and returns Promise<Array<void>>, but got: " ++ batchSaveFn.display ++ "."

/-- `_prepareBatchLoadFn`: throws a `TypeError` unless the argument is
callable. -/
def prepareBatchLoadFn (batchLoadFn : JSVal) : Except String JSVal :=
  if !(isFunction batchLoadFn) then
    Except.error (loadFnErrorMessage batchLoadFn)
  else
    Except.ok batchLoadFn

/-- `_prepareBatchSaveFn`: when the options slot is undefined and the
second argument is an object, the second argument is the options record
and the stored save function is `null` (modelled `none`, load-only
mode); otherwise a defined non-callable save function throws a
`TypeError`. -/
def prepareBatchSaveFn (batchSaveFn options : JSVal) : Except String (Option JSVal) :=
  if isUndefined options && isObject batchSaveFn then
    Except.ok none
  else if isDefined batchSaveFn && !(isFunction batchSaveFn) then
    Except.error (saveFnErrorMessage batchSaveFn)
  else
    Except.ok (some batchSaveFn)

/-- `_prepareOptions`: reuses the second argument as the options record
under the same shape test, then defaults a falsy options value to the
empty object. -/
def prepareOptions (batchSaveFn options : JSVal) : JSVal :=
  let options :=
    if isUndefined options && isObject batchSaveFn then batchSaveFn else options
  if options.truthy then options else JSVal.object

/-! ### Core data model -/

/-- The `type` tag of a queued item: `'load'` or `'save'`. -/
inductive Kind where
  | load
  | save
  deriving DecidableEq

/-- One pending request pushed on `_queue`. The `(resolve, reject)` pair
of the promise handed to the caller is modelled by the future id `fid`;
`value` is present exactly on save items. -/
structure PendingItem (K V : Type) where
  key : K
  value : Option V
  kind : Kind
  fid : Nat
  deriving DecidableEq

/-- The configuration record: `cache` models `this._options.cache !==
false`, `cacheKeyFn` and `maxBatchSize` are optional exactly as in the
source (`maxBatchSize` is consulted through JavaScript truthiness, so a
configured `0` behaves as unconfigured). -/
structure Options (K : Type) where
  cache : Bool
  cacheKeyFn : Option (K → K)
  maxBatchSize : Option Nat

/-- `const cacheKey = cacheKeyFn ? cacheKeyFn(key) : key` -/
def cacheKeyOf {K : Type} (opts : Options K) (key : K) : K :=
  match opts.cacheKeyFn with
  | some f => f key
  | none => key

/-- The coordinator's mutable state: `_loadCache` (association list from
cache key to the cached future id), `_queue`, `_flushing`, and the
supply of fresh future ids. -/
structure BatcherState (K V : Type) where
  loadCache : List (K × Nat)
  queue : List (PendingItem K V)
  flushing : Bool
  nextFid : Nat
  deriving DecidableEq

/-- The state right after construction: empty cache, empty queue, not
flushing. -/
def initialState (K V : Type) : BatcherState K V :=
  { loadCache := [], queue := [], flushing := false, nextFid := 0 }

variable {K V : Type}

/-- Property read `this._loadCache[cacheKey]` on the association list. -/
def cacheLookup [DecidableEq K] : List (K × Nat) → K → Option Nat
  | [], _ => none
  | (k, fid) :: rest, ck => if k = ck then some fid else cacheLookup rest ck

/-- Property write `this._loadCache[cacheKey] = fid`. -/
def cacheSet [DecidableEq K] : List (K × Nat) → K → Nat → List (K × Nat)
  | [], ck, fid => [(ck, fid)]
  | (k, f) :: rest, ck, fid =>
      if k = ck then (ck, fid) :: rest else (k, f) :: cacheSet rest ck fid

/-- Property delete `delete this._loadCache[cacheKey]`. -/
def cacheErase [DecidableEq K] (cache : List (K × Nat)) (ck : K) : List (K × Nat) :=
  cache.filter (fun p => decide (p.1 ≠ ck))

theorem cacheLookup_set_self [DecidableEq K] (cache : List (K × Nat)) (ck : K) (fid : Nat) :
    cacheLookup (cacheSet cache ck fid) ck = some fid := by
  induction cache with
  | nil => simp [cacheSet, cacheLookup]
  | cons p rest ih =>
      obtain ⟨k, f⟩ := p
      by_cases h : k = ck
      · simp [cacheSet, cacheLookup, h]
      · simp [cacheSet, cacheLookup, h, ih]

theorem cacheLookup_set_ne [DecidableEq K] (cache : List (K × Nat)) (ck ck2 : K) (fid : Nat)
    (h : ck2 ≠ ck) :
    cacheLookup (cacheSet cache ck fid) ck2 = cacheLookup cache ck2 := by
  induction cache with
  | nil => simp [cacheSet, cacheLookup, Ne.symm h]
  | cons p rest ih =>
      obtain ⟨k, f⟩ := p
      by_cases hk : k = ck
      · subst hk
        simp [cacheSet, cacheLookup, Ne.symm h]
      · simp [cacheSet, cacheLookup, hk, ih]

theorem cacheLookup_erase_self [DecidableEq K] (cache : List (K × Nat)) (ck : K) :
    cacheLookup (cacheErase cache ck) ck = none := by
  induction cache with
  | nil => simp [cacheErase, cacheLookup]
  | cons p rest ih =>
      obtain ⟨k, f⟩ := p
      by_cases h : k = ck
      · simpa [cacheErase, cacheLookup, h] using ih
      · simpa [cacheErase, cacheLookup, h] using ih

theorem cacheLookup_erase_ne [DecidableEq K] (cache : List (K × Nat)) (ck ck2 : K) (h : ck2 ≠ ck) :
    cacheLookup (cacheErase cache ck) ck2 = cacheLookup cache ck2 := by
  induction cache with
  | nil => simp [cacheErase, cacheLookup]
  | cons p rest ih =>
      obtain ⟨k, f⟩ := p
      by_cases hk : k = ck
      · subst hk
        simp only [cacheErase, List.filter, ne_eq, decide_not] at ih ⊢
        simp [cacheLookup, Ne.symm h, ih]
      · by_cases hk2 : k = ck2
        · subst hk2
          simp only [cacheErase, List.filter, ne_eq, decide_not] at ih ⊢
          simp [cacheLookup, hk]
        · simp only [cacheErase, List.filter, ne_eq, decide_not] at ih ⊢
          simp [cacheLookup, hk, hk2, ih]

/-! ### Public operations: load and save -/

/-- `_loadLater`: `new Promise(...)` allocates a fresh future and pushes
a `PendingItem` of kind `load` on the queue. -/
def loadLater (s : BatcherState K V) (key : K) : Nat × BatcherState K V :=
  let fid := s.nextFid
  (fid, { s with
            queue := s.queue ++ [{ key := key, value := none, kind := Kind.load, fid := fid }],
            nextFid := fid + 1 })

/-- `load(key)`: with caching enabled, return the cached future when the
cache key hits, else enqueue via `_loadLater` and cache the new future;
with caching disabled, always enqueue. -/
def load [DecidableEq K] (opts : Options K) (s : BatcherState K V) (key : K) : Nat × BatcherState K V :=
  let shouldCache := opts.cache
  let cacheKey := cacheKeyOf opts key
  if shouldCache then
    match cacheLookup s.loadCache cacheKey with
    | some fid => (fid, s)
    | none =>
        let (fid, s1) := loadLater s key
        (fid, { s1 with loadCache := cacheSet s1.loadCache cacheKey fid })
  else
    loadLater s key

/-- `_saveLater`: allocate a fresh future and push a `PendingItem` of
kind `save` carrying the value. -/
def saveLater (s : BatcherState K V) (key : K) (value : V) : Nat × BatcherState K V :=
  let fid := s.nextFid
  (fid, { s with
            queue := s.queue ++ [{ key := key, value := some value, kind := Kind.save, fid := fid }],
            nextFid := fid + 1 })

/-- `save(key, value)`: first delete the load-cache entry for the key's
cache key, then enqueue the save via `_saveLater`. -/
def save [DecidableEq K] (opts : Options K) (s : BatcherState K V) (key : K) (value : V) :
    Nat × BatcherState K V :=
  let cacheKey := cacheKeyOf opts key
  let s1 := { s with loadCache := cacheErase s.loadCache cacheKey }
  saveLater s1 key value

/-- `saveMany(saves)`: issue `save` for each pair in order, collecting
the futures positionally. -/
def saveMany [DecidableEq K] (opts : Options K) (s : BatcherState K V) :
    List (K × V) → List Nat × BatcherState K V
  | [] => ([], s)
  | (k, v) :: rest =>
      let (fid, s1) := save opts s k v
      let (fids, s2) := saveMany opts s1 rest
      (fid :: fids, s2)

/-! ### Batch-function outcomes and result validation -/

/-- One position of a resolved batch array: either an ordinary value or
an `Error` instance used as a per-item error value. -/
inductive ResVal (V : Type) where
  | val (v : V)
  | errVal (msg : String)
  deriving DecidableEq

/-- The observable outcome of calling the batch function: the returned
value is falsy or has no `then` (not an awaitable), or it awaits to
something that is not an array, or it awaits to an array of per-position
values. -/
inductive BatchOutcome (V : Type) where
  | notThenable
  | nonArray
  | arr (rs : List (ResVal V))
  deriving DecidableEq

/-- The `Error` produced by `_checkLoadResult` / `_checkSaveResult` when
the batch function violates its contract. `lengthMismatch` carries the
expected and the actual length, as the message text does. -/
inductive CheckError where
  | notThenable
  | nonArray
  | lengthMismatch (expected actual : Nat)
  deriving DecidableEq

/-- `_checkLoadResult`: validate awaitable, array shape, and exact
length; return the validation `Error` or the result array. -/
def checkLoadResult (outcome : BatchOutcome V) (expectedLength : Nat) :
    Except CheckError (List (ResVal V)) :=
  match outcome with
  | BatchOutcome.notThenable => Except.error CheckError.notThenable
  | BatchOutcome.nonArray => Except.error CheckError.nonArray
  | BatchOutcome.arr rs =>
      if rs.length ≠ expectedLength then
        Except.error (CheckError.lengthMismatch expectedLength rs.length)
      else
        Except.ok rs

/-- `_checkSaveResult`: same validation as `_checkLoadResult` (the
source differs only in the message text). -/
def checkSaveResult (outcome : BatchOutcome V) (expectedLength : Nat) :
    Except CheckError (List (ResVal V)) :=
  match outcome with
  | BatchOutcome.notThenable => Except.error CheckError.notThenable
  | BatchOutcome.nonArray => Except.error CheckError.nonArray
  | BatchOutcome.arr rs =>
      if rs.length ≠ expectedLength then
        Except.error (CheckError.lengthMismatch expectedLength rs.length)
      else
        Except.ok rs

/-- How one item's future ends up settled by a dispatch. -/
inductive Settlement (V : Type) where
  | resolved (v : V)
  | rejectedBatch (e : CheckError)
  | rejectedItem (msg : String)
  deriving DecidableEq

/-- Settle one item from its position's result value: `result instanceof
Error ? reject(result) : resolve(result)`. -/
def settleOf : ResVal V → Settlement V
  | ResVal.val v => Settlement.resolved v
  | ResVal.errVal m => Settlement.rejectedItem m

/-- `_batchLoad`: validate the outcome; on a validation `Error` reject
every item of the batch with it, otherwise settle each item from its own
position of the result array. Returns the settlement of each item's
future, in batch order. -/
def batchLoad (outcome : BatchOutcome V) (batch : List (PendingItem K V)) :
    List (Nat × Settlement V) :=
  match checkLoadResult outcome batch.length with
  | Except.error e => batch.map (fun it => (it.fid, Settlement.rejectedBatch e))
  | Except.ok rs => List.zipWith (fun it r => (it.fid, settleOf r)) batch rs

/-- `_batchSave`: identical distribution logic for save batches. -/
def batchSave (outcome : BatchOutcome V) (batch : List (PendingItem K V)) :
    List (Nat × Settlement V) :=
  match checkSaveResult outcome batch.length with
  | Except.error e => batch.map (fun it => (it.fid, Settlement.rejectedBatch e))
  | Except.ok rs => List.zipWith (fun it r => (it.fid, settleOf r)) batch rs

/-! ### The flush loop -/

/-- `const maxBatchSize = this._options.maxBatchSize ?
Math.min(this._options.maxBatchSize, queueLength) : queueLength`.
A configured `0` is falsy in JavaScript and behaves as unconfigured. -/
def effectiveMax (opts : Options K) (queueLength : Nat) : Nat :=
  match opts.maxBatchSize with
  | some m => if m = 0 then queueLength else min m queueLength
  | none => queueLength

/-- The `while` scan of `_flushQueue`: starting from `batchSize = 1`,
keep extending while `batchSize < maxBatchSize` and the item at index
`batchSize` has the batch's kind. -/
def scanSize (q : List (PendingItem K V)) (batchType : Kind) (maxB : Nat) (bs : Nat) : Nat :=
  if bs < maxB then
    match q.get? bs with
    | some it => if it.kind = batchType then scanSize q batchType maxB (bs + 1) else bs
    | none => bs
  else
    bs
termination_by maxB - bs

/-- The batch size computed by one `_flushQueue` iteration on a
non-empty queue headed by `h`. -/
def batchSizeOf (opts : Options K) (h : PendingItem K V) (q : List (PendingItem K V)) : Nat :=
  scanSize q h.kind (effectiveMax opts q.length) 1

/-- One `_flushQueue` iteration on a non-empty queue: compute the batch
size, then `splice` the prefix off (`take`) leaving the rest (`drop`). -/
def flushStep (opts : Options K) :
    List (PendingItem K V) → Option (Kind × List (PendingItem K V) × List (PendingItem K V))
  | [] => none
  | h :: t =>
      let q := h :: t
      let batchSize := batchSizeOf opts h q
      some (h.kind, q.take batchSize, q.drop batchSize)

/-- Length of the longest prefix of the queue whose items all have the
given kind. This is the specification-side quantity the `while` scan
computes, capped at `effectiveMax`. -/
def homogLen : List (PendingItem K V) → Kind → Nat
  | [], _ => 0
  | it :: rest, t => if it.kind = t then homogLen rest t + 1 else 0

theorem homogLen_le_length (q : List (PendingItem K V)) (t : Kind) :
    homogLen q t ≤ q.length := by
  induction q with
  | nil => simp [homogLen]
  | cons it rest ih =>
      by_cases h : it.kind = t
      · simpa [homogLen, h] using ih
      · simp [homogLen, h]

theorem get_lt_homogLen (q : List (PendingItem K V)) (t : Kind) (i : Nat)
    (hi : i < homogLen q t) :
    ∃ it, q.get? i = some it ∧ it.kind = t := by
  induction q generalizing i with
  | nil => simp [homogLen] at hi
  | cons x rest ih =>
      by_cases hx : x.kind = t
      · cases i with
        | zero => exact ⟨x, rfl, hx⟩
        | succ j =>
            simp only [homogLen, hx, if_true] at hi
            exact ih j (by omega)
      · simp [homogLen, hx] at hi

theorem get_at_homogLen (q : List (PendingItem K V)) (t : Kind) (it : PendingItem K V)
    (h : q.get? (homogLen q t) = some it) : it.kind ≠ t := by
  induction q with
  | nil => simp at h
  | cons x rest ih =>
      by_cases hx : x.kind = t
      · simp only [homogLen, hx, if_true] at h
        exact ih (by simpa using h)
      · simp only [homogLen, hx, if_false] at h
        simp only [List.get?] at h
        cases h
        exact hx

theorem homogLen_pos (x : PendingItem K V) (rest : List (PendingItem K V)) :
    1 ≤ homogLen (x :: rest) x.kind := by
  simp [homogLen]

/-- The `while` scan computes exactly the homogeneous-prefix length
capped at `maxB`, provided it starts inside both bounds. -/
theorem scanSize_eq (q : List (PendingItem K V)) (t : Kind) (maxB bs : Nat)
    (hL : bs ≤ homogLen q t) (hM : bs ≤ maxB) :
    scanSize q t maxB bs = min maxB (homogLen q t) := by
  unfold scanSize
  by_cases hlt : bs < maxB
  · rw [if_pos hlt]
    by_cases hbs : bs < homogLen q t
    · obtain ⟨it, hget, hkind⟩ := get_lt_homogLen q t bs hbs
      rw [hget]
      simp only [hkind, if_true]
      exact scanSize_eq q t maxB (bs + 1) (by omega) (by omega)
    · have hbsL : bs = homogLen q t := by omega
      cases hget : q.get? bs with
      | none =>
          simp only [hget]
          omega
      | some it =>
          have hne : it.kind ≠ t := by
            rw [hbsL] at hget
            exact get_at_homogLen q t it hget
          simp only [hget, hne, if_false]
          omega
  · rw [if_neg hlt]
    omega
termination_by maxB - bs

theorem effectiveMax_le (opts : Options K) (n : Nat) : effectiveMax opts n ≤ n := by
  unfold effectiveMax
  cases opts.maxBatchSize with
  | none => exact Nat.le_refl n
  | some m =>
      by_cases hm : m = 0
      · simp [hm]
      · simp [hm, Nat.min_le_right]

theorem effectiveMax_pos (opts : Options K) (n : Nat) (hn : 1 ≤ n) :
    1 ≤ effectiveMax opts n := by
  unfold effectiveMax
  cases opts.maxBatchSize with
  | none => exact hn
  | some m =>
      by_cases hm : m = 0
      · simp [hm, hn]
      · simp only [hm, if_false]
        omega

/-- Characterization of the batch size on a non-empty queue: it is the
homogeneous-prefix length capped at `effectiveMax`. -/
theorem batchSizeOf_eq (opts : Options K) (h : PendingItem K V) (t : List (PendingItem K V)) :
    batchSizeOf opts h (h :: t) =
      min (effectiveMax opts (h :: t).length) (homogLen (h :: t) h.kind) := by
  unfold batchSizeOf
  exact scanSize_eq (h :: t) h.kind (effectiveMax opts (h :: t).length) 1
    (homogLen_pos h t)
    (effectiveMax_pos opts (h :: t).length (by simp))

theorem batchSizeOf_pos (opts : Options K) (h : PendingItem K V) (t : List (PendingItem K V)) :
    1 ≤ batchSizeOf opts h (h :: t) := by
  rw [batchSizeOf_eq]
  have h1 := effectiveMax_pos opts (h :: t).length (by simp)
  have h2 := homogLen_pos h t
  omega

theorem batchSizeOf_le (opts : Options K) (h : PendingItem K V) (t : List (PendingItem K V)) :
    batchSizeOf opts h (h :: t) ≤ (h :: t).length := by
  rw [batchSizeOf_eq]
  have h1 := effectiveMax_le opts (h :: t).length
  omega

/-! ### Running the flush loop to completion -/

/-- One batch-function invocation recorded during a flush: the load
function receives the batch's keys, the save function its
`[key, value]` pairs. -/
inductive Invocation (K V : Type) where
  | loadCall (keys : List K)
  | saveCall (pairs : List (K × Option V))
  deriving DecidableEq

/-- Number of items such an invocation carries. -/
def Invocation.arity : Invocation K V → Nat
  | Invocation.loadCall keys => keys.length
  | Invocation.saveCall pairs => pairs.length

/-- The keys such an invocation carries, in dispatch order. -/
def Invocation.keyList : Invocation K V → List K
  | Invocation.loadCall keys => keys
  | Invocation.saveCall pairs => pairs.map Prod.fst

/-- `_flushQueue` run until the queue is empty: repeatedly split off the
scanned homogeneous prefix, dispatch it through the load or save batch
function, and recurse on the rest. Returns the invocations made (in
order), the settlement of every dispatched item's future, and the
leftover queue. When a save batch is reached while the stored save
function is `null` (load-only mode), calling it throws a `TypeError`
inside the async dispatch, so the flush aborts: no invocation is made,
nothing in that batch settles, and the rest of the queue survives
unprocessed. -/
def runFlushAux (opts : Options K) (loadFn : List K → BatchOutcome V)
    (saveFn : Option (List (K × Option V) → BatchOutcome V)) :
    Nat → List (PendingItem K V) →
      List (Invocation K V) × List (Nat × Settlement V) × List (PendingItem K V)
  | _, [] => ([], [], [])
  | 0, h :: t => ([], [], h :: t)
  | fuel + 1, h :: t =>
      let batchSize := batchSizeOf opts h (h :: t)
      let batch := (h :: t).take batchSize
      let rest := (h :: t).drop batchSize
      match h.kind with
      | Kind.load =>
          let keys := batch.map PendingItem.key
          let setts := batchLoad (loadFn keys) batch
          let res := runFlushAux opts loadFn saveFn fuel rest
          (Invocation.loadCall keys :: res.1, setts ++ res.2.1, res.2.2)
      | Kind.save =>
          match saveFn with
          | none => ([], [], rest)
          | some f =>
              let pairs := batch.map (fun it => (it.key, it.value))
              let setts := batchSave (f pairs) batch
              let res := runFlushAux opts loadFn saveFn fuel rest
              (Invocation.saveCall pairs :: res.1, setts ++ res.2.1, res.2.2)

/-- `_flushQueue` run to completion. The fuel bound `q.length` is
sufficient: each iteration removes at least one item (`batchSizeOf` is
at least 1), and `runFlushAux_fuel` shows the result does not depend on
the fuel once it covers the queue length. -/
def runFlush (opts : Options K) (loadFn : List K → BatchOutcome V)
    (saveFn : Option (List (K × Option V) → BatchOutcome V))
    (q : List (PendingItem K V)) :
    List (Invocation K V) × List (Nat × Settlement V) × List (PendingItem K V) :=
  runFlushAux opts loadFn saveFn q.length q

/-- The whole-state effect of a flush: the queue is replaced by the
leftover (empty unless the flush aborted on a `null` save function); the
load cache is untouched, as `_flushQueue`, `_batchLoad` and `_batchSave`
never reference `_loadCache`. -/
def flushQueue (opts : Options K) (loadFn : List K → BatchOutcome V)
    (saveFn : Option (List (K × Option V) → BatchOutcome V)) (s : BatcherState K V) :
    BatcherState K V × List (Invocation K V) × List (Nat × Settlement V) :=
  let res := runFlush opts loadFn saveFn s.queue
  ({ s with queue := res.2.2, flushing := !res.2.2.isEmpty }, res.1, res.2.1)

/-! ### Event traces -/

/-- An external interaction with the coordinator: a `load` call, a
`save` call, or the deferred flush firing. -/
inductive Event (K V : Type) where
  | load (key : K)
  | save (key : K) (value : V)
  | flush
  deriving DecidableEq

/-- State transition of one event. -/
def stepEvent [DecidableEq K] (opts : Options K) (loadFn : List K → BatchOutcome V)
    (saveFn : Option (List (K × Option V) → BatchOutcome V))
    (s : BatcherState K V) : Event K V → BatcherState K V
  | Event.load k => (load opts s k).2
  | Event.save k v => (save opts s k v).2
  | Event.flush => (flushQueue opts loadFn saveFn s).1

/-- Run a trace of events from a state. -/
def runEvents [DecidableEq K] (opts : Options K) (loadFn : List K → BatchOutcome V)
    (saveFn : Option (List (K × Option V) → BatchOutcome V)) :
    BatcherState K V → List (Event K V) → BatcherState K V
  | s, [] => s
  | s, e :: es => runEvents opts loadFn saveFn (stepEvent opts loadFn saveFn s e) es

/-! ### Supporting lemmas -/

/-- After a `load` with caching enabled, the cache maps the key's cache
key to the returned future. -/
theorem load_lookup_self [DecidableEq K] (opts : Options K) (s : BatcherState K V) (k : K)
    (hc : opts.cache = true) :
    cacheLookup (load opts s k).2.loadCache (cacheKeyOf opts k) = some (load opts s k).1 := by
  unfold load
  rw [hc]
  simp only [if_true]
  cases hl : cacheLookup s.loadCache (cacheKeyOf opts k) with
  | some fid => simpa using hl
  | none => simp [loadLater, cacheLookup_set_self]

/-- On an all-same-kind queue the homogeneous prefix is the whole
queue. -/
theorem homogLen_all (q : List (PendingItem K V)) (t : Kind)
    (hq : ∀ it ∈ q, it.kind = t) : homogLen q t = q.length := by
  induction q with
  | nil => simp [homogLen]
  | cons x rest ih =>
      have hx : x.kind = t := hq x (by simp)
      simp only [homogLen, hx, if_true, List.length_cons]
      rw [ih (fun it hit => hq it (by simp [hit]))]

/-- Items inside the scanned batch all have the batch's kind. -/
theorem mem_take_batch_kind (q : List (PendingItem K V)) (t : Kind) :
    ∀ n, n ≤ homogLen q t → ∀ it ∈ q.take n, it.kind = t := by
  induction q with
  | nil => intro n hn it hit; simp at hit
  | cons x rest ih =>
      intro n hn it hit
      cases n with
      | zero => simp at hit
      | succ n2 =>
          have hx : x.kind = t := by
            by_contra hxne
            simp [homogLen, hxne] at hn
          simp only [List.take_succ_cons, List.mem_cons] at hit
          cases hit with
          | inl h => rw [h]; exact hx
          | inr h =>
              have hn2 : n2 ≤ homogLen rest t := by
                simp only [homogLen, hx, if_true] at hn
                omega
              exact ih n2 hn2 it h

theorem zipWith_get_some {A B C : Type} (f : A → B → C) :
    ∀ (l1 : List A) (l2 : List B) (i : Nat) (a : A) (b : B),
      l1.get? i = some a → l2.get? i = some b →
      (List.zipWith f l1 l2).get? i = some (f a b) := by
  intro l1
  induction l1 with
  | nil => intro l2 i a b h1 h2; simp at h1
  | cons x xs ih =>
      intro l2 i a b h1 h2
      cases l2 with
      | nil => simp at h2
      | cons y ys =>
          cases i with
          | zero =>
              simp only [List.get?] at h1 h2
              cases h1; cases h2
              rfl
          | succ j =>
              simp only [List.get?] at h1 h2 ⊢
              exact ih ys j a b h1 h2

/-- Any fuel covering the queue length gives the same flush result. -/
theorem runFlushAux_fuel (opts : Options K) (loadFn : List K → BatchOutcome V)
    (saveFn : Option (List (K × Option V) → BatchOutcome V)) :
    ∀ (f1 : Nat), ∀ (f2 : Nat) (q : List (PendingItem K V)),
      q.length ≤ f1 → q.length ≤ f2 →
      runFlushAux opts loadFn saveFn f1 q = runFlushAux opts loadFn saveFn f2 q := by
  intro f1
  induction f1 with
  | zero =>
      intro f2 q h1 h2
      cases q with
      | nil => cases f2 <;> rfl
      | cons h t => simp at h1
  | succ f1p ih =>
      intro f2 q h1 h2
      cases q with
      | nil => cases f2 <;> rfl
      | cons h t =>
          cases f2 with
          | zero => simp at h2
          | succ f2p =>
              have hrest : ((h :: t).drop (batchSizeOf opts h (h :: t))).length ≤ f1p := by
                have := batchSizeOf_pos opts h t
                simp only [List.length_drop, List.length_cons]
                simp only [List.length_cons] at h1
                omega
              have hrest2 : ((h :: t).drop (batchSizeOf opts h (h :: t))).length ≤ f2p := by
                have := batchSizeOf_pos opts h t
                simp only [List.length_drop, List.length_cons]
                simp only [List.length_cons] at h2
                omega
              simp only [runFlushAux]
              rw [ih f2p ((h :: t).drop (batchSizeOf opts h (h :: t))) hrest hrest2]

theorem runFlush_nil (opts : Options K) (loadFn : List K → BatchOutcome V)
    (saveFn : Option (List (K × Option V) → BatchOutcome V)) :
    runFlush opts loadFn saveFn ([] : List (PendingItem K V)) = ([], [], []) := rfl

/-- Unfolding `runFlush` on a queue headed by a load item. -/
theorem runFlush_cons_load (opts : Options K) (loadFn : List K → BatchOutcome V)
    (saveFn : Option (List (K × Option V) → BatchOutcome V))
    (h : PendingItem K V) (t : List (PendingItem K V)) (hk : h.kind = Kind.load) :
    runFlush opts loadFn saveFn (h :: t) =
      (Invocation.loadCall (((h :: t).take (batchSizeOf opts h (h :: t))).map PendingItem.key)
          :: (runFlush opts loadFn saveFn ((h :: t).drop (batchSizeOf opts h (h :: t)))).1,
       batchLoad (loadFn (((h :: t).take (batchSizeOf opts h (h :: t))).map PendingItem.key))
            ((h :: t).take (batchSizeOf opts h (h :: t)))
          ++ (runFlush opts loadFn saveFn ((h :: t).drop (batchSizeOf opts h (h :: t)))).2.1,
       (runFlush opts loadFn saveFn ((h :: t).drop (batchSizeOf opts h (h :: t)))).2.2) := by
  have hrest : ((h :: t).drop (batchSizeOf opts h (h :: t))).length ≤ t.length := by
    have := batchSizeOf_pos opts h t
    simp only [List.length_drop, List.length_cons]
    omega
  unfold runFlush
  simp only [List.length_cons, runFlushAux, hk]
  rw [runFlushAux_fuel opts loadFn saveFn t.length
        ((h :: t).drop (batchSizeOf opts h (h :: t))).length
        ((h :: t).drop (batchSizeOf opts h (h :: t))) hrest (Nat.le_refl _)]

/-- Unfolding `runFlush` on a queue headed by a save item when a save
function is stored. -/
theorem runFlush_cons_save (opts : Options K) (loadFn : List K → BatchOutcome V)
    (f : List (K × Option V) → BatchOutcome V)
    (h : PendingItem K V) (t : List (PendingItem K V)) (hk : h.kind = Kind.save) :
    runFlush opts loadFn (some f) (h :: t) =
      (Invocation.saveCall (((h :: t).take (batchSizeOf opts h (h :: t))).map
            (fun it => (it.key, it.value)))
          :: (runFlush opts loadFn (some f) ((h :: t).drop (batchSizeOf opts h (h :: t)))).1,
       batchSave (f (((h :: t).take (batchSizeOf opts h (h :: t))).map
            (fun it => (it.key, it.value))))
            ((h :: t).take (batchSizeOf opts h (h :: t)))
          ++ (runFlush opts loadFn (some f) ((h :: t).drop (batchSizeOf opts h (h :: t)))).2.1,
       (runFlush opts loadFn (some f) ((h :: t).drop (batchSizeOf opts h (h :: t)))).2.2) := by
  have hrest : ((h :: t).drop (batchSizeOf opts h (h :: t))).length ≤ t.length := by
    have := batchSizeOf_pos opts h t
    simp only [List.length_drop, List.length_cons]
    omega
  unfold runFlush
  simp only [List.length_cons, runFlushAux, hk]
  rw [runFlushAux_fuel opts loadFn (some f) t.length
        ((h :: t).drop (batchSizeOf opts h (h :: t))).length
        ((h :: t).drop (batchSizeOf opts h (h :: t))) hrest (Nat.le_refl _)]

/-- Unfolding `runFlush` on a queue headed by a save item when the
stored save function is `null`: the flush aborts. -/
theorem runFlush_cons_save_none (opts : Options K) (loadFn : List K → BatchOutcome V)
    (h : PendingItem K V) (t : List (PendingItem K V)) (hk : h.kind = Kind.save) :
    runFlush opts loadFn none (h :: t) =
      ([], [], (h :: t).drop (batchSizeOf opts h (h :: t))) := by
  unfold runFlush
  simp only [List.length_cons, runFlushAux, hk]

/-- Every batch-function invocation a flush makes carries at least one
item. -/
theorem runFlushAux_arity_pos (opts : Options K) (loadFn : List K → BatchOutcome V)
    (saveFn : Option (List (K × Option V) → BatchOutcome V)) :
    ∀ (fuel : Nat) (q : List (PendingItem K V)),
      ∀ inv ∈ (runFlushAux opts loadFn saveFn fuel q).1, 1 ≤ inv.arity := by
  intro fuel
  induction fuel with
  | zero =>
      intro q inv hinv
      cases q <;> simp [runFlushAux] at hinv
  | succ fp ih =>
      intro q inv hinv
      cases q with
      | nil => simp [runFlushAux] at hinv
      | cons h t =>
          have hbatchlen :
              1 ≤ ((h :: t).take (batchSizeOf opts h (h :: t))).length := by
            have h1 := batchSizeOf_pos opts h t
            simp only [List.length_take, List.length_cons]
            omega
          cases hk : h.kind with
          | load =>
              simp only [runFlushAux, hk, List.mem_cons] at hinv
              cases hinv with
              | inl he =>
                  rw [he]
                  simpa [Invocation.arity] using hbatchlen
              | inr he => exact ih _ inv he
          | save =>
              cases saveFn with
              | none => simp [runFlushAux, hk] at hinv
              | some f =>
                  simp only [runFlushAux, hk, List.mem_cons] at hinv
                  cases hinv with
                  | inl he =>
                      rw [he]
                      simpa [Invocation.arity] using hbatchlen
                  | inr he => exact ih _ inv he

/-! ### Claim theorems -/

/-- Claim C1: with caching enabled, a `load` whose cache key already has
a LoadCache entry returns that cached future with the whole state —
queue included — unchanged (no new enqueue); consequently two `load`
calls whose keys map to the same cache key (the same key, or distinct
keys under a colliding `cacheKeyFn`), issued before the batch executes,
return the identical future and the pair of calls enqueues at most one
underlying fetch. -/
theorem load_cache_dedup [DecidableEq K] (opts : Options K) (s : BatcherState K V)
    (hc : opts.cache = true) :
    (∀ k fid, cacheLookup s.loadCache (cacheKeyOf opts k) = some fid →
      load opts s k = (fid, s)) ∧
    (∀ k1 k2, cacheKeyOf opts k1 = cacheKeyOf opts k2 →
      load opts (load opts s k1).2 k2 = load opts s k1) := by
  constructor
  · intro k fid hit
    unfold load
    rw [hc]
    simp [hit]
  · intro k1 k2 hkk
    have hl := load_lookup_self opts s k1 hc
    rcases hE : load opts s k1 with ⟨f1, s1⟩
    rw [hE] at hl
    unfold load
    rw [hc]
    simp only [if_true, ← hkk, hl]

/-- Witness for C1: with `cacheKeyFn: () => 1`, a load of key 5 against
a cache holding an entry for cache key 1 returns future 0 and leaves the
state untouched, and loads of the distinct keys 1 and 2 return the
identical future. -/
theorem load_cache_dedup_witness :
    load (Options.mk true (some (fun _ => 1)) none)
        (BatcherState.mk [((1:Nat), 0)] ([] : List (PendingItem Nat Nat)) false 1) 5 =
      (0, BatcherState.mk [(1, 0)] [] false 1) ∧
    load (Options.mk true (some (fun _ => 1)) none)
        (load (Options.mk true (some (fun _ => 1)) none) (initialState Nat Nat) 1).2 2 =
      load (Options.mk true (some (fun _ => 1)) none) (initialState Nat Nat) 1 :=
  ⟨(load_cache_dedup (Options.mk true (some (fun _ => 1)) none)
      (BatcherState.mk [(1, 0)] [] false 1) rfl).1 5 0 rfl,
   (load_cache_dedup (Options.mk true (some (fun _ => 1)) none)
      (initialState Nat Nat) rfl).2 1 2 rfl⟩

/-- Claim C2: one flush iteration on a non-empty queue removes exactly
the longest prefix whose items share the head's kind, capped at
`effectiveMax`, and dispatches it as one batch (so every item of the
batch has the head's kind and no batch mixes loads and saves);
`effectiveMax` is `min maxBatchSize queueLength` when `maxBatchSize` is
configured (as a positive value) and `queueLength` otherwise. -/
theorem flushStep_homogeneous_prefix (opts : Options K)
    (h : PendingItem K V) (tl : List (PendingItem K V)) :
    flushStep opts (h :: tl) =
      some (h.kind,
        (h :: tl).take (min (effectiveMax opts (h :: tl).length) (homogLen (h :: tl) h.kind)),
        (h :: tl).drop
          (min (effectiveMax opts (h :: tl).length) (homogLen (h :: tl) h.kind))) ∧
    (∀ it ∈ (h :: tl).take
        (min (effectiveMax opts (h :: tl).length) (homogLen (h :: tl) h.kind)),
      it.kind = h.kind) ∧
    (∀ m, opts.maxBatchSize = some m → m ≠ 0 →
      effectiveMax opts (h :: tl).length = min m (h :: tl).length) ∧
    (opts.maxBatchSize = none → effectiveMax opts (h :: tl).length = (h :: tl).length) := by
  refine ⟨?_, ?_, ?_, ?_⟩
  · show some (h.kind, (h :: tl).take (batchSizeOf opts h (h :: tl)),
        (h :: tl).drop (batchSizeOf opts h (h :: tl))) = _
    rw [batchSizeOf_eq]
  · exact mem_take_batch_kind (h :: tl) h.kind _ (Nat.min_le_right _ _)
  · intro m hm hm0
    unfold effectiveMax
    rw [hm]
    simp [hm0]
  · intro hm
    unfold effectiveMax
    rw [hm]

/-- Witness for C2: on the mixed queue load·load·save with no
`maxBatchSize`, one flush iteration splits off exactly the two loads. -/
theorem flushStep_homogeneous_prefix_witness :
    flushStep (Options.mk true none none)
        [PendingItem.mk (1:Nat) (none : Option Nat) Kind.load 0,
         PendingItem.mk 2 none Kind.load 1,
         PendingItem.mk 3 (some 9) Kind.save 2] =
      some (Kind.load,
        [PendingItem.mk 1 none Kind.load 0, PendingItem.mk 2 none Kind.load 1],
        [PendingItem.mk 3 (some 9) Kind.save 2]) ∧
    (Options.mk (K := Nat) true none none).maxBatchSize = none ∧
    effectiveMax (Options.mk (K := Nat) true none none) 3 = 3 := by
  have h := flushStep_homogeneous_prefix (Options.mk true none none)
      (PendingItem.mk (1:Nat) (none : Option Nat) Kind.load 0)
      [PendingItem.mk 2 none Kind.load 1, PendingItem.mk 3 (some 9) Kind.save 2]
  refine ⟨?_, rfl, ?_⟩
  · rw [h.1]
    decide
  · exact h.2.2.2 rfl

/-- Claim C10: on a non-empty queue, the computed batch size is between
1 and the queue length (so the homogeneity scan only probes valid
indices, `effectiveMax` never exceeding the queue length), the spliced
batch is non-empty, and consequently every batch-function invocation a
flush makes carries at least one key or pair. -/
theorem batchSize_bounds (opts : Options K) (loadFn : List K → BatchOutcome V)
    (saveFn : Option (List (K × Option V) → BatchOutcome V))
    (h : PendingItem K V) (tl : List (PendingItem K V)) :
    1 ≤ batchSizeOf opts h (h :: tl) ∧
    batchSizeOf opts h (h :: tl) ≤ (h :: tl).length ∧
    effectiveMax opts (h :: tl).length ≤ (h :: tl).length ∧
    (h :: tl).take (batchSizeOf opts h (h :: tl)) ≠ [] ∧
    (∀ inv ∈ (runFlush opts loadFn saveFn (h :: tl)).1, 1 ≤ inv.arity) := by
  refine ⟨batchSizeOf_pos opts h tl, batchSizeOf_le opts h tl,
    effectiveMax_le opts (h :: tl).length, ?_, ?_⟩
  · have h1 := batchSizeOf_pos opts h tl
    have : ((h :: tl).take (batchSizeOf opts h (h :: tl))).length ≠ 0 := by
      simp only [List.length_take, List.length_cons]
      omega
    intro hcon
    rw [hcon] at this
    exact this rfl
  · exact runFlushAux_arity_pos opts loadFn saveFn (h :: tl).length (h :: tl)

/-- Witness for C10: on a one-item queue the computed batch size is
exactly 1 and the single invocation of a flush carries one key. -/
theorem batchSize_bounds_witness :
    1 ≤ batchSizeOf (Options.mk true none none)
        (PendingItem.mk (1:Nat) (none : Option Nat) Kind.load 0)
        [PendingItem.mk 1 none Kind.load 0] ∧
    batchSizeOf (Options.mk true none none)
        (PendingItem.mk (1:Nat) (none : Option Nat) Kind.load 0)
        [PendingItem.mk 1 none Kind.load 0] ≤ 1 ∧
    (∀ inv ∈ (runFlush (Options.mk true none none) (fun _ => BatchOutcome.nonArray) none
        [PendingItem.mk (1:Nat) (none : Option Nat) Kind.load 0]).1, 1 ≤ inv.arity) := by
  have h := batchSize_bounds (Options.mk true none none)
      (fun _ => BatchOutcome.nonArray) none
      (PendingItem.mk (1:Nat) (none : Option Nat) Kind.load 0) []
  exact ⟨h.1, h.2.1, h.2.2.2.2⟩

/-- Claim C3: `save(k, v)` deletes the LoadCache entry for `k`'s cache
key immediately (before the save's batch executes): afterwards the
lookup misses, the save item is enqueued, and a `load(k)` issued
strictly after the save (caching enabled) enqueues a fresh `PendingItem`
whose future differs from every future cached before the save — a
second, independent fetch. The freshness hypothesis states that cached
future ids were allocated before the current `nextFid`, which holds of
every reachable state. -/
theorem save_invalidates_cache [DecidableEq K] (opts : Options K) (s : BatcherState K V)
    (k : K) (v : V) (hc : opts.cache = true)
    (hfresh : ∀ p ∈ s.loadCache, p.2 < s.nextFid) :
    cacheLookup (save opts s k v).2.loadCache (cacheKeyOf opts k) = none ∧
    (save opts s k v).2.queue = s.queue ++ [PendingItem.mk k (some v) Kind.save s.nextFid] ∧
    (load opts (save opts s k v).2 k).2.queue =
      (save opts s k v).2.queue ++
        [PendingItem.mk k none Kind.load (load opts (save opts s k v).2 k).1] ∧
    (∀ p ∈ s.loadCache, p.2 ≠ (load opts (save opts s k v).2 k).1) := by
  have ha : cacheLookup (save opts s k v).2.loadCache (cacheKeyOf opts k) = none := by
    simp [save, saveLater, cacheLookup_erase_self]
  have hfid : (load opts (save opts s k v).2 k).1 = s.nextFid + 1 := by
    unfold load
    rw [hc]
    simp only [if_true, ha]
    simp [save, saveLater, loadLater]
  refine ⟨ha, ?_, ?_, ?_⟩
  · simp [save, saveLater]
  · unfold load
    rw [hc]
    simp only [if_true, ha]
    simp [loadLater]
  · intro p hp
    rw [hfid]
    have := hfresh p hp
    omega

/-- Witness for C3: from a state caching future 0 for key 1, a
`save(1, 7)` empties the entry, enqueues the save as future 1, and the
following `load(1)` enqueues a fresh item whose future 2 differs from
the previously cached future 0. -/
theorem save_invalidates_cache_witness :
    cacheLookup (save (Options.mk true none none)
        (BatcherState.mk [((1:Nat), 0)] ([] : List (PendingItem Nat Nat)) false 1)
        1 7).2.loadCache (cacheKeyOf (Options.mk true none none) 1) = none ∧
    (save (Options.mk true none none)
        (BatcherState.mk [((1:Nat), 0)] ([] : List (PendingItem Nat Nat)) false 1)
        1 7).2.queue =
      (BatcherState.mk [((1:Nat), 0)] ([] : List (PendingItem Nat Nat)) false 1).queue ++
        [PendingItem.mk 1 (some 7) Kind.save 1] ∧
    (load (Options.mk true none none) (save (Options.mk true none none)
        (BatcherState.mk [((1:Nat), 0)] ([] : List (PendingItem Nat Nat)) false 1)
        1 7).2 1).2.queue =
      (save (Options.mk true none none)
        (BatcherState.mk [((1:Nat), 0)] ([] : List (PendingItem Nat Nat)) false 1)
        1 7).2.queue ++
        [PendingItem.mk 1 none Kind.load
          (load (Options.mk true none none) (save (Options.mk true none none)
            (BatcherState.mk [((1:Nat), 0)] ([] : List (PendingItem Nat Nat)) false 1)
            1 7).2 1).1] ∧
    (∀ p ∈ (BatcherState.mk [((1:Nat), 0)] ([] : List (PendingItem Nat Nat)) false 1).loadCache,
      p.2 ≠ (load (Options.mk true none none) (save (Options.mk true none none)
        (BatcherState.mk [((1:Nat), 0)] ([] : List (PendingItem Nat Nat)) false 1)
        1 7).2 1).1) :=
  save_invalidates_cache (Options.mk true none none)
    (BatcherState.mk [(1, 0)] [] false 1) 1 7 rfl (by decide)

/-- The load- and save-side validations are the same function of the
outcome and the expected length; they differ only in message text. -/
theorem checkSaveResult_eq_checkLoadResult (outcome : BatchOutcome V) (n : Nat) :
    checkSaveResult outcome n = checkLoadResult outcome n := by
  cases outcome <;> rfl

/-- Claim C5: when the batch function's outcome is not an awaitable, or
awaits to a non-array, or to an array of the wrong length, every item of
the batch is rejected uniformly with the same validation error — for a
length mismatch, one carrying the expected and the actual length — on
the load and the save side alike; and each dispatched batch triggers
exactly one batch-function invocation (no retry), whatever the
outcome. -/
theorem batch_validation_failure (outcome : BatchOutcome V)
    (batch : List (PendingItem K V)) (e : CheckError)
    (he : checkLoadResult outcome batch.length = Except.error e) :
    batchLoad outcome batch =
      batch.map (fun it => (it.fid, Settlement.rejectedBatch e)) ∧
    batchSave outcome batch =
      batch.map (fun it => (it.fid, Settlement.rejectedBatch e)) ∧
    (outcome = BatchOutcome.notThenable → e = CheckError.notThenable) ∧
    (outcome = BatchOutcome.nonArray → e = CheckError.nonArray) ∧
    (∀ rs, outcome = BatchOutcome.arr rs →
      rs.length ≠ batch.length ∧ e = CheckError.lengthMismatch batch.length rs.length) ∧
    (∀ (opts : Options K) (loadFn : List K → BatchOutcome V)
        (f : List (K × Option V) → BatchOutcome V) (h2 : PendingItem K V)
        (tl : List (PendingItem K V)),
      (runFlush opts loadFn (some f) (h2 :: tl)).1.length =
        1 + (runFlush opts loadFn (some f)
              ((h2 :: tl).drop (batchSizeOf opts h2 (h2 :: tl)))).1.length) := by
  refine ⟨?_, ?_, ?_, ?_, ?_, ?_⟩
  · unfold batchLoad
    rw [he]
  · unfold batchSave
    rw [checkSaveResult_eq_checkLoadResult, he]
  · intro ho
    rw [ho] at he
    simpa [checkLoadResult] using he.symm
  · intro ho
    rw [ho] at he
    simpa [checkLoadResult] using he.symm
  · intro rs ho
    rw [ho] at he
    unfold checkLoadResult at he
    by_cases hl : rs.length = batch.length
    · simp [hl] at he
    · simp only [hl, ne_eq, not_false_iff, if_true] at he
      exact ⟨hl, by injection he with h2; exact h2.symm⟩
  · intro opts loadFn f h2 tl
    cases hk : h2.kind with
    | load =>
        rw [runFlush_cons_load opts loadFn (some f) h2 tl hk]
        simp [Nat.add_comm]
    | save =>
        rw [runFlush_cons_save opts loadFn f h2 tl hk]
        simp [Nat.add_comm]

/-- Witness for C5: a two-item load batch answered by a one-element
array rejects both items with the same length-mismatch error. -/
theorem batch_validation_failure_witness :
    batchLoad (BatchOutcome.arr [ResVal.val (5:Nat)])
        [PendingItem.mk (1:Nat) (none : Option Nat) Kind.load 0,
         PendingItem.mk 2 none Kind.load 1] =
      [(0, Settlement.rejectedBatch (CheckError.lengthMismatch 2 1)),
       (1, Settlement.rejectedBatch (CheckError.lengthMismatch 2 1))] ∧
    batchSave (BatchOutcome.arr [ResVal.val (5:Nat)])
        [PendingItem.mk (1:Nat) (none : Option Nat) Kind.load 0,
         PendingItem.mk 2 none Kind.load 1] =
      [(0, Settlement.rejectedBatch (CheckError.lengthMismatch 2 1)),
       (1, Settlement.rejectedBatch (CheckError.lengthMismatch 2 1))] := by
  have h := batch_validation_failure (BatchOutcome.arr [ResVal.val (5:Nat)])
      [PendingItem.mk (1:Nat) (none : Option Nat) Kind.load 0,
       PendingItem.mk 2 none Kind.load 1]
      (CheckError.lengthMismatch 2 1) rfl
  constructor
  · rw [h.1]; rfl
  · rw [h.2.1]; rfl

/-- Claim C6: on a well-formed result of the right length, positions map
1:1 — an `Error` value at a position rejects exactly that item's future
with it, every other position resolves its own item with its own value;
the save side distributes identically. -/
theorem batch_success_positional (outcome : BatchOutcome V)
    (batch : List (PendingItem K V)) (rs : List (ResVal V))
    (hok : checkLoadResult outcome batch.length = Except.ok rs) :
    outcome = BatchOutcome.arr rs ∧
    rs.length = batch.length ∧
    batchLoad outcome batch = List.zipWith (fun it r => (it.fid, settleOf r)) batch rs ∧
    batchSave outcome batch = batchLoad outcome batch ∧
    (∀ i it r, batch.get? i = some it → rs.get? i = some r →
      (batchLoad outcome batch).get? i = some (it.fid, settleOf r)) ∧
    (∀ i it m, batch.get? i = some it → rs.get? i = some (ResVal.errVal m) →
      (batchLoad outcome batch).get? i = some (it.fid, Settlement.rejectedItem m)) ∧
    (∀ i it w, batch.get? i = some it → rs.get? i = some (ResVal.val w) →
      (batchLoad outcome batch).get? i = some (it.fid, Settlement.resolved w)) := by
  have harr : outcome = BatchOutcome.arr rs ∧ rs.length = batch.length := by
    cases outcome with
    | notThenable => simp [checkLoadResult] at hok
    | nonArray => simp [checkLoadResult] at hok
    | arr rs2 =>
        unfold checkLoadResult at hok
        by_cases hl : rs2.length = batch.length
        · simp only [hl, ne_eq, not_true_eq_false, if_false] at hok
          injection hok with h2
          subst h2
          exact ⟨rfl, hl⟩
        · simp [hl] at hok
  have hbl : batchLoad outcome batch =
      List.zipWith (fun it r => (it.fid, settleOf r)) batch rs := by
    unfold batchLoad
    rw [hok]
  have hget : ∀ i it r, batch.get? i = some it → rs.get? i = some r →
      (batchLoad outcome batch).get? i = some (it.fid, settleOf r) := by
    intro i it r h1 h2
    rw [hbl]
    exact zipWith_get_some (fun it r => (it.fid, settleOf r)) batch rs i it r h1 h2
  refine ⟨harr.1, harr.2, hbl, ?_, hget, ?_, ?_⟩
  · unfold batchSave batchLoad
    rw [checkSaveResult_eq_checkLoadResult]
  · intro i it m h1 h2
    exact hget i it (ResVal.errVal m) h1 h2
  · intro i it w h1 h2
    exact hget i it (ResVal.val w) h1 h2

/-- Witness for C6: a two-item batch answered by `[5, Error("x")]`
resolves item 0 with 5 and rejects only item 1 with the error value. -/
theorem batch_success_positional_witness :
    (batchLoad (BatchOutcome.arr [ResVal.val (5:Nat), ResVal.errVal "x"])
        [PendingItem.mk (1:Nat) (none : Option Nat) Kind.load 0,
         PendingItem.mk 2 none Kind.load 1]).get? 0 =
      some (0, Settlement.resolved 5) ∧
    (batchLoad (BatchOutcome.arr [ResVal.val (5:Nat), ResVal.errVal "x"])
        [PendingItem.mk (1:Nat) (none : Option Nat) Kind.load 0,
         PendingItem.mk 2 none Kind.load 1]).get? 1 =
      some (1, Settlement.rejectedItem "x") := by
  have h := batch_success_positional
      (BatchOutcome.arr [ResVal.val (5:Nat), ResVal.errVal "x"])
      [PendingItem.mk (1:Nat) (none : Option Nat) Kind.load 0,
       PendingItem.mk 2 none Kind.load 1]
      [ResVal.val 5, ResVal.errVal "x"] rfl
  exact ⟨h.2.2.2.2.2.2 0 (PendingItem.mk 1 none Kind.load 0) 5 rfl rfl,
         h.2.2.2.2.2.1 1 (PendingItem.mk 2 none Kind.load 1) "x" rfl rfl⟩

/-- Flushing an all-same-kind queue under `maxBatchSize = m ≥ 1`: the
invocation count is the ceiling of `queueLength / m`, every invocation
carries at most `m` items, and concatenating the invocations' keys
recovers the queue's keys in arrival order. Induction on a fuel bound on
the queue length. -/
theorem runFlush_homog_chunks (opts : Options K) (loadFn : List K → BatchOutcome V)
    (f : List (K × Option V) → BatchOutcome V) (t : Kind) (m : Nat)
    (hm : opts.maxBatchSize = some m) (hm1 : 1 ≤ m) :
    ∀ (n : Nat) (q : List (PendingItem K V)), q.length ≤ n → (∀ it ∈ q, it.kind = t) →
      (runFlush opts loadFn (some f) q).1.length = (q.length + m - 1) / m ∧
      (∀ inv ∈ (runFlush opts loadFn (some f) q).1, inv.arity ≤ m) ∧
      ((runFlush opts loadFn (some f) q).1.map Invocation.keyList).flatten =
        q.map PendingItem.key := by
  intro n
  induction n with
  | zero =>
      intro q hlen hq
      have hq0 : q = [] := List.eq_nil_of_length_eq_zero (by omega)
      subst hq0
      refine ⟨?_, ?_, ?_⟩
      · rw [runFlush_nil]
        simp [Nat.div_eq_of_lt (by omega : m - 1 < m)]
      · rw [runFlush_nil]
        intro inv hinv
        simp at hinv
      · rw [runFlush_nil]
        rfl
  | succ np ih =>
      intro q hlen hq
      cases hq0 : q with
      | nil =>
          refine ⟨?_, ?_, ?_⟩
          · rw [runFlush_nil]
            simp [Nat.div_eq_of_lt (by omega : m - 1 < m)]
          · rw [runFlush_nil]
            intro inv hinv
            simp at hinv
          · rw [runFlush_nil]
            rfl
      | cons h tlq =>
          subst hq0
          have hm0 : m ≠ 0 := by omega
          have hlen1 : 1 ≤ (h :: tlq).length := by simp
          have hbs : batchSizeOf opts h (h :: tlq) = min m (h :: tlq).length := by
            rw [batchSizeOf_eq, homogLen_all (h :: tlq) h.kind
                  (fun it hit => by rw [hq it hit, hq h (by simp)])]
            unfold effectiveMax
            rw [hm]
            simp only [hm0, if_false]
            omega
          have hrest_len : ((h :: tlq).drop (batchSizeOf opts h (h :: tlq))).length ≤ np := by
            simp only [List.length_drop]
            have := batchSizeOf_pos opts h tlq
            simp only [List.length_cons] at hlen ⊢
            omega
          have hrest_hom : ∀ it ∈ (h :: tlq).drop (batchSizeOf opts h (h :: tlq)),
              it.kind = t :=
            fun it hit => hq it (List.mem_of_mem_drop hit)
          obtain ⟨ih1, ih2, ih3⟩ :=
            ih ((h :: tlq).drop (batchSizeOf opts h (h :: tlq))) hrest_len hrest_hom
          have hbatch_len :
              ((h :: tlq).take (batchSizeOf opts h (h :: tlq))).length =
                min m (h :: tlq).length := by
            rw [List.length_take, hbs]
            omega
          have hdrop_len : ((h :: tlq).drop (batchSizeOf opts h (h :: tlq))).length =
              (h :: tlq).length - min m (h :: tlq).length := by
            rw [List.length_drop, hbs]
          have hcount : ∀ restCalls : Nat,
              restCalls = (((h :: tlq).length - min m (h :: tlq).length) + m - 1) / m →
              restCalls + 1 = ((h :: tlq).length + m - 1) / m := by
            intro restCalls hrc
            by_cases hcase : (h :: tlq).length ≤ m
            · have hminv : min m (h :: tlq).length = (h :: tlq).length := by omega
              rw [hminv] at hrc
              have h2 : (h :: tlq).length - (h :: tlq).length + m - 1 = m - 1 := by omega
              rw [h2] at hrc
              rw [hrc, Nat.div_eq_of_lt (by omega : m - 1 < m)]
              have hle : 1 * m ≤ (h :: tlq).length + m - 1 := by
                simp only [List.length_cons] at hlen1 ⊢
                omega
              have hlt : (h :: tlq).length + m - 1 < (1 + 1) * m := by
                simp only [List.length_cons] at hcase ⊢
                omega
              rw [Nat.div_eq_of_lt_le hle hlt]
            · have hminv : min m (h :: tlq).length = m := by omega
              rw [hminv] at hrc
              have h2 : (h :: tlq).length + m - 1 =
                  ((h :: tlq).length - m + m - 1) + m := by omega
              rw [h2, Nat.add_div_right _ (by omega : 0 < m), hrc]
          cases hkv : h.kind with
          | load =>
              rw [runFlush_cons_load opts loadFn (some f) h tlq hkv]
              refine ⟨?_, ?_, ?_⟩
              · simp only [List.length_cons, ih1]
                exact hcount _ (by rw [hdrop_len])
              · intro inv hinv
                simp only [List.mem_cons] at hinv
                cases hinv with
                | inl he =>
                    rw [he]
                    simp only [Invocation.arity, List.length_map, hbatch_len]
                    omega
                | inr he => exact ih2 inv he
              · rw [List.map_cons, List.flatten_cons, ih3]
                simp only [Invocation.keyList]
                rw [← List.map_append, List.take_append_drop]
          | save =>
              rw [runFlush_cons_save opts loadFn f h tlq hkv]
              refine ⟨?_, ?_, ?_⟩
              · simp only [List.length_cons, ih1]
                exact hcount _ (by rw [hdrop_len])
              · intro inv hinv
                simp only [List.mem_cons] at hinv
                cases hinv with
                | inl he =>
                    rw [he]
                    simp only [Invocation.arity, List.length_map, hbatch_len]
                    omega
                | inr he => exact ih2 inv he
              · rw [List.map_cons, List.flatten_cons, ih3]
                simp only [Invocation.keyList, List.map_map]
                have hcomp : (Prod.fst ∘ fun it : PendingItem K V => (it.key, it.value)) =
                    PendingItem.key := rfl
                rw [hcomp, ← List.map_append, List.take_append_drop]

/-- Claim C7: with `maxBatchSize = m ≥ 1` and `n > m` pending same-kind
items flushed in one cycle, the flush makes exactly `ceil(n/m)`
batch-function calls, each carrying at most `m` items, and the
concatenation of the calls' keys is the queue's keys in arrival order. -/
theorem maxBatchSize_ceil_dispatches (opts : Options K) (loadFn : List K → BatchOutcome V)
    (f : List (K × Option V) → BatchOutcome V) (q : List (PendingItem K V))
    (t : Kind) (m : Nat)
    (hm : opts.maxBatchSize = some m) (hm1 : 1 ≤ m)
    (hq : ∀ it ∈ q, it.kind = t) (_hn : m < q.length) :
    (runFlush opts loadFn (some f) q).1.length = (q.length + m - 1) / m ∧
    (∀ inv ∈ (runFlush opts loadFn (some f) q).1, inv.arity ≤ m) ∧
    ((runFlush opts loadFn (some f) q).1.map Invocation.keyList).flatten =
      q.map PendingItem.key :=
  runFlush_homog_chunks opts loadFn f t m hm hm1 q.length q (Nat.le_refl _) hq

/-- Witness for C7: three pending loads under `maxBatchSize = 2` produce
`ceil(3/2) = 2` dispatch calls covering keys 1, 2, 3 in arrival order. -/
theorem maxBatchSize_ceil_dispatches_witness :
    (runFlush (Options.mk true none (some 2)) (fun ks => BatchOutcome.arr
        (ks.map (fun k => ResVal.val k)))
      (some (fun _ => BatchOutcome.arr []))
      [PendingItem.mk (1:Nat) (none : Option Nat) Kind.load 0,
       PendingItem.mk 2 none Kind.load 1,
       PendingItem.mk 3 none Kind.load 2]).1.length = 2 ∧
    ((runFlush (Options.mk true none (some 2)) (fun ks => BatchOutcome.arr
        (ks.map (fun k => ResVal.val k)))
      (some (fun _ => BatchOutcome.arr []))
      [PendingItem.mk (1:Nat) (none : Option Nat) Kind.load 0,
       PendingItem.mk 2 none Kind.load 1,
       PendingItem.mk 3 none Kind.load 2]).1.map Invocation.keyList).flatten =
      [1, 2, 3] := by
  have h := maxBatchSize_ceil_dispatches (Options.mk true none (some 2))
      (fun ks => BatchOutcome.arr (ks.map (fun k => ResVal.val k)))
      (fun _ => BatchOutcome.arr [])
      [PendingItem.mk (1:Nat) (none : Option Nat) Kind.load 0,
       PendingItem.mk 2 none Kind.load 1,
       PendingItem.mk 3 none Kind.load 2]
      Kind.load 2 rfl (by omega) (by decide) (by decide)
  refine ⟨?_, ?_⟩
  · rw [h.1]
    rfl
  · rw [h.2.2]
    rfl

/-- Claim C8: construction rejects a non-callable load function with the
`TypeError` whose message displays the received value; a supplied save
function that is not taken as the configuration object and is not
callable is rejected likewise; and a second argument of object type with
no third argument is interpreted as the configuration record (the stored
save function slot becoming `null`), not as a save function. -/
theorem constructor_validation :
    (∀ v, isFunction v = false →
      prepareBatchLoadFn v = Except.error (loadFnErrorMessage v)) ∧
    (∀ v, isFunction v = true → prepareBatchLoadFn v = Except.ok v) ∧
    (∀ sv ov, isDefined sv = true → (isUndefined ov && isObject sv) = false →
      isFunction sv = false →
      prepareBatchSaveFn sv ov = Except.error (saveFnErrorMessage sv)) ∧
    (∀ sv ov, isUndefined ov = true → isObject sv = true →
      prepareBatchSaveFn sv ov = Except.ok none ∧
      (sv.truthy = true → prepareOptions sv ov = sv)) := by
  refine ⟨?_, ?_, ?_, ?_⟩
  · intro v hv
    simp [prepareBatchLoadFn, hv]
  · intro v hv
    simp [prepareBatchLoadFn, hv]
  · intro sv ov hdef hshape hfun
    simp [prepareBatchSaveFn, hshape, hdef, hfun]
  · intro sv ov hou hob
    refine ⟨by simp [prepareBatchSaveFn, hou, hob], ?_⟩
    intro ht
    simp [prepareOptions, hou, hob, ht]

/-- Witness for C8: `false` as load function is rejected with the
message displaying `false`; a callable passes; `(fn, false, {})` rejects
the save slot; `(fn, {})` is load-only with `{}` as the options. -/
theorem constructor_validation_witness :
    prepareBatchLoadFn (JSVal.boolean false) =
      Except.error (loadFnErrorMessage (JSVal.boolean false)) ∧
    prepareBatchLoadFn JSVal.func = Except.ok JSVal.func ∧
    prepareBatchSaveFn (JSVal.boolean false) JSVal.object =
      Except.error (saveFnErrorMessage (JSVal.boolean false)) ∧
    prepareBatchSaveFn JSVal.object JSVal.undef = Except.ok none ∧
    prepareOptions JSVal.object JSVal.undef = JSVal.object := by
  have h := constructor_validation
  exact ⟨h.1 (JSVal.boolean false) rfl, h.2.1 JSVal.func rfl,
    h.2.2.1 (JSVal.boolean false) JSVal.object rfl rfl rfl,
    (h.2.2.2 JSVal.object JSVal.undef rfl rfl).1,
    (h.2.2.2 JSVal.object JSVal.undef rfl rfl).2 rfl⟩

/-- Claim C4 counterexample: in load-only mode the stored save function
is `null`, yet `save` does not fail fast with any error: invoked on the
fresh coordinator it enqueues a Save `PendingItem` and returns its
pending future, leaving the queue changed — there is no capability
check anywhere in `save`. -/
theorem save_load_only_counterexample :
    prepareBatchSaveFn JSVal.object JSVal.undef = Except.ok none ∧
    (save (Options.mk true none none) (initialState Nat Nat) 1 2).2.queue =
      [PendingItem.mk 1 (some 2) Kind.save 0] ∧
    ¬ ((save (Options.mk true none none) (initialState Nat Nat) 1 2).2.queue =
        (initialState Nat Nat).queue) := by
  refine ⟨rfl, rfl, ?_⟩
  decide

/-- Claim C4 (amended): on a load-only coordinator (second constructor
argument an object, no third argument) the stored save function is
`null`, and `save`/`saveMany` do not fail fast: `save` always deletes
the cache entry, enqueues a Save `PendingItem` and returns its pending
future (`saveMany` doing so per pair); when the flush later reaches a
save batch with the `null` save function, the dispatch throws a
`TypeError` and aborts — no batch-function invocation is made, no
queued future is settled, and the rest of the queue survives. -/
theorem save_load_only_no_failfast [DecidableEq K] (opts : Options K)
    (s : BatcherState K V) (k : K) (v : V) (loadFn : List K → BatchOutcome V) :
    prepareBatchSaveFn JSVal.object JSVal.undef = Except.ok none ∧
    (save opts s k v).2.queue =
      s.queue ++ [PendingItem.mk k (some v) Kind.save s.nextFid] ∧
    (save opts s k v).1 = s.nextFid ∧
    (saveMany opts s [(k, v)]).2 = (save opts s k v).2 ∧
    (∀ h tl, h.kind = Kind.save →
      runFlush opts loadFn none (h :: tl) =
        ([], [], (h :: tl).drop (batchSizeOf opts h (h :: tl)))) := by
  refine ⟨rfl, ?_, rfl, ?_, ?_⟩
  · simp [save, saveLater]
  · simp [saveMany]
  · intro h tl hk
    exact runFlush_cons_save_none opts loadFn h tl hk

/-- Witness for C4 (amended): a concrete save on a load-only coordinator
enqueues the item, and flushing that one-item save queue with the `null`
save function settles nothing and makes no invocation. -/
theorem save_load_only_no_failfast_witness :
    (save (Options.mk true none none) (initialState Nat Nat) 1 (2:Nat)).2.queue =
      (initialState Nat Nat).queue ++ [PendingItem.mk 1 (some 2) Kind.save 0] ∧
    runFlush (Options.mk true none none) (fun _ => BatchOutcome.nonArray) none
        [PendingItem.mk (1:Nat) (some (2:Nat)) Kind.save 0] = ([], [], []) := by
  have h := save_load_only_no_failfast (Options.mk true none none)
      (initialState Nat Nat) 1 (2:Nat) (fun _ => BatchOutcome.nonArray)
  have h5 := h.2.2.2.2 (PendingItem.mk (1:Nat) (some (2:Nat)) Kind.save 0) [] rfl
  rw [batchSizeOf_eq] at h5
  refine ⟨h.2.1, ?_⟩
  rw [h5]
  rfl

/-- Claim C9: with caching enabled, a LoadCache entry survives every
event that is not a save colliding with its cache key — in particular a
flush that settles (even rejects) its future never removes it — so any
later load of a key mapping to that cache key keeps returning the same,
possibly already rejected, future until such a save occurs. -/
theorem cache_entry_persists [DecidableEq K] (opts : Options K)
    (loadFn : List K → BatchOutcome V)
    (saveFn : Option (List (K × Option V) → BatchOutcome V))
    (s : BatcherState K V) (ck : K) (fid : Nat) (evs : List (Event K V))
    (hc : opts.cache = true)
    (hhit : cacheLookup s.loadCache ck = some fid)
    (hsaves : ∀ k v, Event.save k v ∈ evs → cacheKeyOf opts k ≠ ck) :
    cacheLookup (runEvents opts loadFn saveFn s evs).loadCache ck = some fid ∧
    (∀ k2, cacheKeyOf opts k2 = ck →
      load opts (runEvents opts loadFn saveFn s evs) k2 =
        (fid, runEvents opts loadFn saveFn s evs)) := by
  have hpers : ∀ (evs2 : List (Event K V)) (s2 : BatcherState K V),
      cacheLookup s2.loadCache ck = some fid →
      (∀ k v, Event.save k v ∈ evs2 → cacheKeyOf opts k ≠ ck) →
      cacheLookup (runEvents opts loadFn saveFn s2 evs2).loadCache ck = some fid := by
    intro evs2
    induction evs2 with
    | nil =>
        intro s2 hh _
        simpa [runEvents] using hh
    | cons e es ih =>
        intro s2 hh hsv
        simp only [runEvents]
        apply ih
        · cases e with
          | load k =>
              simp only [stepEvent]
              unfold load
              rw [hc]
              simp only [if_true]
              cases hl : cacheLookup s2.loadCache (cacheKeyOf opts k) with
              | some fid2 => simpa using hh
              | none =>
                  have hne : cacheKeyOf opts k ≠ ck := by
                    intro heq
                    rw [heq, hh] at hl
                    exact Option.noConfusion hl
                  simp only [loadLater]
                  rw [cacheLookup_set_ne _ _ _ _ (Ne.symm hne)]
                  exact hh
          | save k v =>
              simp only [stepEvent]
              have hne := hsv k v (by simp)
              simp only [save, saveLater]
              rw [cacheLookup_erase_ne _ _ _ (Ne.symm hne)]
              exact hh
          | flush =>
              simpa [stepEvent, flushQueue] using hh
        · intro k v hm
          exact hsv k v (by simp [hm])
  refine ⟨hpers evs s hhit hsaves, ?_⟩
  intro k2 hk2
  have hh := hpers evs s hhit hsaves
  unfold load
  rw [hc]
  simp only [if_true, hk2, hh]

/-- Witness for C9: after `load(1)` caches future 0, a flush whose
batch function answers with an error value (rejecting the future) and a
later unrelated `load(3)` leave the entry for cache key 1 holding
future 0, and a further `load(1)` still returns future 0. -/
theorem cache_entry_persists_witness :
    cacheLookup (runEvents (Options.mk true none none)
        (fun _ => BatchOutcome.arr [ResVal.errVal "boom"]) none
        (load (Options.mk true none none) (initialState Nat Nat) 1).2
        [Event.flush, Event.load 3]).loadCache 1 = some 0 ∧
    (load (Options.mk true none none) (runEvents (Options.mk true none none)
        (fun _ => BatchOutcome.arr [ResVal.errVal "boom"]) none
        (load (Options.mk true none none) (initialState Nat Nat) 1).2
        [Event.flush, Event.load 3]) 1).1 = 0 := by
  have h := cache_entry_persists (Options.mk true none none)
      (fun _ => BatchOutcome.arr [ResVal.errVal "boom"]) none
      (load (Options.mk true none none) (initialState Nat Nat) 1).2
      1 0 [Event.flush, Event.load 3] rfl rfl
      (by intro k v hm; simp at hm)
  refine ⟨h.1, ?_⟩
  rw [h.2 1 rfl]

end DataBatcher
